import Mathlib

/-!
Shallow embedding of `transformer/position_encoding_test.py` from the
GraphiT repository: the position-encoding subsystem (Diffusion, P-Step
random walk, Adjacency, Full and Laplacian-eigenvector encoders, the
zero-diagonal masking, the one-hot helper for edge attributes, and the
per-split caching `apply_to` protocol).

Numbers are modelled as rationals (the Python code computes with floats;
all the claims under study are exact structural/shape/algebraic facts, so
exact arithmetic is the faithful abstraction).  Dense matrices are lists
of rows; a torch tensor flowing through this code is either a 2-D matrix
or a 3-D stack of channel matrices.  External numeric routines that are
not part of the repository (`scipy.sparse.linalg.expm`, `np.linalg.eig`)
are passed in as function parameters; everything written in the
repository itself is translated directly.
-/

namespace GraphiT

/-- A dense matrix: list of rows of rationals. -/
abbrev Mat := List (List ℚ)

/-- A torch tensor as it appears in this code: 2-D, or 3-D (a stack of
channel matrices, first index = dim 0). -/
inductive Tensor where
  | t2 (m : Mat)
  | t3 (ms : List Mat)
deriving DecidableEq, Repr

/-- The graph interface the encoders consume: `num_nodes`, `edge_index`
(one `(source, target)` pair per edge) and optional per-edge rows of
categorical attribute codes. -/
structure Graph where
  num_nodes : ℕ
  edge_index : List (ℕ × ℕ)
  edge_attr : List (List ℤ) := []
deriving DecidableEq, Repr

/-- Laplacian normalization mode accepted by the encoders. -/
inductive Normalization where
  | nrmNone
  | sym
  | rnw
deriving DecidableEq, Repr

/-- Number of columns of a dense matrix (length of its first row, 0 when
empty — how shapes behave for the rectangular matrices this code builds). -/
def numCols (m : Mat) : ℕ := (m.headD []).length

/-- `m` is an `n × n` matrix. -/
def isSquareOf (n : ℕ) (m : Mat) : Prop :=
  m.length = n ∧ ∀ row ∈ m, row.length = n

instance (n : ℕ) (m : Mat) : Decidable (isSquareOf n m) := by
  unfold isSquareOf; infer_instance

/-- Identity matrix (`sp.identity(n)`). -/
def matId (n : ℕ) : Mat :=
  (List.range n).map fun i => (List.range n).map fun j => if i = j then 1 else 0

/-- Scalar multiple of a matrix. -/
def matScale (c : ℚ) (m : Mat) : Mat := m.map (List.map (fun x => c * x))

/-- Entrywise difference of two matrices of equal shape. -/
def matSub (a b : Mat) : Mat := List.zipWith (List.zipWith (fun x y => x - y)) a b

/-- Dot product of two vectors. -/
def dotProd (u v : List ℚ) : ℚ := (List.zipWith (fun x y => x * y) u v).sum

/-- Column `j` of a matrix. -/
def colOf (m : Mat) (j : ℕ) : List ℚ := m.map fun r => r.getD j 0

/-- Matrix product (`tmp.dot(L)` on the scipy side, dense view). -/
def matMul (a b : Mat) : Mat :=
  a.map fun row => (List.range (numCols b)).map fun j => dotProd row (colOf b j)

/-- Entry `(i, j)` of a matrix, 0 when out of range. -/
def matEntry (m : Mat) (i j : ℕ) : ℚ := (m.getD i []).getD j 0

/-- Drop self-loop edges together with their weights
(`torch_geometric.utils.remove_self_loops`). -/
def removeSelfLoops (ew : List ((ℕ × ℕ) × ℚ)) : List ((ℕ × ℕ) × ℚ) :=
  ew.filter fun p => !(p.1.1 == p.1.2)

/-- Weighted out-degree of node `i` (`scatter_add` of the edge weights over
the source indices). -/
def degreeOf (ew : List ((ℕ × ℕ) × ℚ)) (i : ℕ) : ℚ :=
  ((ew.filter fun p => p.1.1 == i).map Prod.snd).sum

/-- Total weight carried by the (possibly duplicated) edges `i → j`
(`to_scipy_sparse_matrix` sums duplicate COO entries). -/
def weightSum (ew : List ((ℕ × ℕ) × ℚ)) (i j : ℕ) : ℚ :=
  ((ew.filter fun p => p.1 == (i, j)).map Prod.snd).sum

/-- `get_laplacian(edge_index, edge_weight, normalization=None, num_nodes)`
followed by `to_scipy_sparse_matrix(...)`, viewed densely: self-loops are
removed, absent weights default to 1, and `L = D − A` where `D` holds the
weighted out-degrees.  (The `sym`/`rw` normalizations are not needed by the
claims under study and are not modelled.) -/
def get_laplacian_none (edges : List (ℕ × ℕ)) (w : Option (List ℚ)) (n : ℕ) : Mat :=
  let weights := w.getD (List.replicate edges.length 1)
  let ew := removeSelfLoops (edges.zip weights)
  (List.range n).map fun i => (List.range n).map fun j =>
    (if i = j then degreeOf ew i else 0) - weightSum ew i j

/-- The base matrix `I − β·L` built by `PStepRWEncoding`
(`sp.identity(L.shape[0]) - self.beta * L`). -/
def pstep_base (beta : ℚ) (L : Mat) : Mat :=
  matSub (matId L.length) (matScale beta L)

/-- The `tmp = tmp.dot(L)` loop of `PStepRWEncoding.compute_pe_from_edge_weight`:
starting from `M = I − β·L`, multiply by `M` once per iteration of
`range(p - 1)`. -/
def pstep_power (beta : ℚ) (L : Mat) (p : ℕ) : Mat :=
  (List.range (p - 1)).foldl (fun tmp _ => matMul tmp (pstep_base beta L)) (pstep_base beta L)

/-- Number of matrix multiplications performed by the `pstep_power` loop
(one `.dot` per iteration of `range(p - 1)`). -/
def pstep_num_matmuls (p : ℕ) : ℕ := (List.range (p - 1)).length

/-- `PStepRWEncoding.compute_pe_from_edge_weight` (normalization `None`):
build the Laplacian, then `(I − β·L)` raised by the multiplication loop. -/
def pstep_compute_pe_from_edge_weight (beta : ℚ) (p : ℕ)
    (edges : List (ℕ × ℕ)) (w : Option (List ℚ)) (n : ℕ) : Mat :=
  pstep_power beta (get_laplacian_none edges w n) p

/-- `DiffusionEncoding.compute_pe_from_edge_weight` (normalization `None`):
`expm(-β·L)` with the matrix exponential supplied as the external scipy
routine `expmFn`. -/
def diffusion_compute_pe_from_edge_weight (expmFn : Mat → Mat) (beta : ℚ)
    (edges : List (ℕ × ℕ)) (w : Option (List ℚ)) (n : ℕ) : Mat :=
  expmFn (matScale (-beta) (get_laplacian_none edges w n))

/-- `M` raised step by step: `matPowSucc M k` is `M` multiplied on the right
by `M`, `k` times (so `k + 1` factors in total). -/
def matPowSucc (M : Mat) : ℕ → Mat
  | 0 => M
  | k + 1 => matMul (matPowSucc M k) M

/-- The node count `to_dense_adj` infers when called without `batch` or
`max_num_nodes`: one more than the largest endpoint index, 0 for no edges. -/
def inferred_num_nodes : List (ℕ × ℕ) → ℕ
  | [] => 0
  | e :: es => ((e :: es).map fun p => max p.1 p.2).foldl max 0 + 1

/-- Dense adjacency on `n` nodes: entry `(i, j)` counts the edges `i → j`
(duplicates are accumulated). -/
def adjMat (n : ℕ) (edges : List (ℕ × ℕ)) : Mat :=
  (List.range n).map fun i => (List.range n).map fun j =>
    ((edges.filter fun e => e == (i, j)).length : ℚ)

/-- `torch_geometric.utils.to_dense_adj(edge_index)`: a batched 3-D tensor
of shape `[1, M, M]` with `M` inferred from the edge indices. -/
def to_dense_adj (edges : List (ℕ × ℕ)) : Tensor :=
  Tensor.t3 [adjMat (inferred_num_nodes edges) edges]

/-- `AdjEncoding.compute_pe`: `to_dense_adj(graph.edge_index)`.  The
`normalization` constructor argument is stored but never used. -/
def adj_compute_pe (normalization : Normalization) (g : Graph) : Tensor :=
  to_dense_adj g.edge_index

/-- `FullEncoding.compute_pe`: `torch.ones((num_nodes, num_nodes))`. -/
def full_compute_pe (g : Graph) : Tensor :=
  Tensor.t2 ((List.range g.num_nodes).map fun _ =>
    (List.range g.num_nodes).map fun _ => (1 : ℚ))

/-- Shape of a tensor as a dimension list (first row / first channel
determine the trailing sizes, matching the rectangular tensors this code
builds). -/
def tensorShape : Tensor → List ℕ
  | Tensor.t2 m => [m.length, numCols m]
  | Tensor.t3 ms => [ms.length, (ms.headD []).length, numCols (ms.headD [])]

/-- `for`-loop over a list in which each step may raise: stops at the first
failure (exception propagation), otherwise collects the results in order. -/
def optMap (f : α → Option β) : List α → Option (List β)
  | [] => some []
  | x :: xs =>
      match f x, optMap f xs with
      | some y, some ys => some (y :: ys)
      | _, _ => none

/-- `F.one_hot(a, n)` on a single code: a length-`n` 0/1 row, failing (as
the torch call raises) whenever the code lies outside `[0, n)`. -/
def one_hot (a : ℤ) (n : ℕ) : Option (List ℚ) :=
  if 0 ≤ a ∧ a < (n : ℤ) then
    some ((List.range n).map fun (j : ℕ) => if (j : ℤ) = a then 1 else 0)
  else none

/-- `edge_attr_one_hot` when `num_edge_features` is an `int`:
`F.one_hot(edge_attr - 1, n)` applied entrywise to the attribute rows. -/
def edge_attr_one_hot_int (edge_attr : List (List ℤ)) (n : ℕ) :
    Option (List (List (List ℚ))) :=
  optMap (fun row => optMap (fun a => one_hot (a - 1) n) row) edge_attr

/-- `edge_attr_one_hot` when `num_edge_features` is a list of per-column
cardinalities: one-hot each column against its own cardinality and
concatenate along dim 1, so each edge's output row is the concatenation of
one block per attribute column. -/
def edge_attr_one_hot_list (edge_attr : List (List ℤ)) (cards : List ℕ) :
    Option (List (List ℚ)) :=
  optMap (fun row =>
    (optMap (fun c => (row.get? c).bind fun a => one_hot a (cards.getD c 0))
      (List.range cards.length)).map List.flatten) edge_attr

/-- The `use_edge_attr` branch shared verbatim by `DiffusionEncoding.compute_pe`
and `PStepRWEncoding.compute_pe`: one-hot the edge attributes, then build one
channel per one-hot column, using that column as the edge weights. -/
def compute_pe_multichannel (peFn : List (ℕ × ℕ) → Option (List ℚ) → ℕ → Mat)
    (cards : List ℕ) (g : Graph) : Option Tensor :=
  match edge_attr_one_hot_list g.edge_attr cards with
  | none => none
  | some ea =>
      some (Tensor.t3 ((List.range cards.sum).map fun i =>
        peFn g.edge_index (some (colOf ea i)) g.num_nodes))

/-- `DiffusionEncoding.compute_pe` (list-valued `num_edge_features`, the
configuration the multi-channel claims are about). -/
def diffusion_compute_pe (expmFn : Mat → Mat) (beta : ℚ)
    (use_edge_attr : Bool) (cards : List ℕ) (g : Graph) : Option Tensor :=
  if use_edge_attr then
    compute_pe_multichannel (diffusion_compute_pe_from_edge_weight expmFn beta) cards g
  else
    some (Tensor.t2 (diffusion_compute_pe_from_edge_weight expmFn beta g.edge_index none g.num_nodes))

/-- `PStepRWEncoding.compute_pe` (list-valued `num_edge_features`). -/
def pstep_compute_pe (beta : ℚ) (p : ℕ)
    (use_edge_attr : Bool) (cards : List ℕ) (g : Graph) : Option Tensor :=
  if use_edge_attr then
    compute_pe_multichannel (pstep_compute_pe_from_edge_weight beta p) cards g
  else
    some (Tensor.t2 (pstep_compute_pe_from_edge_weight beta p g.edge_index none g.num_nodes))

/-- Stable insertion of an index keyed by its value, keeping earlier indices
first among equal keys. -/
def insertByKey (x : ℚ × ℕ) : List (ℚ × ℕ) → List (ℚ × ℕ)
  | [] => [x]
  | y :: ys => if x.1 < y.1 then x :: y :: ys else y :: insertByKey x ys

/-- Insertion sort on value/index pairs. -/
def sortByKey : List (ℚ × ℕ) → List (ℚ × ℕ)
  | [] => []
  | x :: xs => insertByKey x (sortByKey xs)

/-- `EigVal.argsort()`: the indices that list the values in increasing
order. -/
def argsort (xs : List ℚ) : List ℕ :=
  (sortByKey (xs.enum.map fun p => (p.2, p.1))).map Prod.snd

/-- `LapEncoding.compute_pe` (without edge attributes): build the graph
Laplacian, eigendecompose it with the external routine `eigFn` (modelling
`np.linalg.eig`; values are the sort keys, vectors a matrix whose columns
are eigenvectors, real parts already taken), reorder the columns by
ascending eigenvalue, and return the column slice `EigVec[:, 1:dim+1]` —
numpy slicing, which silently truncates when fewer than `dim + 1` columns
exist. -/
def lap_compute_pe (eigFn : Mat → List ℚ × Mat) (dim : ℕ) (g : Graph) : Mat :=
  let L := get_laplacian_none g.edge_index none g.num_nodes
  let ev := eigFn L
  let idx := argsort ev.1
  let sorted := ev.2.map fun row => idx.map fun j => row.getD j 0
  sorted.map fun row => (row.drop 1).take dim

/-- `pe.diagonal()[:] = 0` on a 2-D tensor: zero the entries `(i, i)`. -/
def zero_diag_2d (m : Mat) : Mat :=
  m.mapIdx fun i row => row.mapIdx fun j x => if j = i then 0 else x

/-- `pe.diagonal()[:] = 0` on a 3-D tensor of shape `[B, N, K]`: torch's
default `dim1=0, dim2=1` makes this zero the entries `pe[d, d, k]` for
`d < min(B, N)` — i.e. row `d` of channel `d`, not the per-channel
diagonals. -/
def zero_diag_dims01 (ms : List Mat) : List Mat :=
  ms.mapIdx fun d m =>
    m.mapIdx fun r row => if r = d then row.map (fun _ => 0) else row

/-- `pe.diagonal(dim1=1, dim2=2)[:] = 0` on a 3-D tensor: zero each
channel's matrix diagonal. -/
def zero_diag_dims12 (ms : List Mat) : List Mat := ms.map zero_diag_2d

/-- The zero-diagonal masking step of `PositionEncoding.apply_to`: on a
clone of the entry, `pe.diagonal(dim1=1, dim2=2)[:] = 0` when the encoder
has a `use_edge_attr` attribute that is true (failing on a 2-D tensor,
where `dim2=2` is out of range), else `pe.diagonal()[:] = 0`; no masking
when `zero_diag` is off. -/
def mask_pe (hasUEA uea zeroDiag : Bool) (pe : Tensor) : Option Tensor :=
  if zeroDiag then
    if hasUEA && uea then
      match pe with
      | Tensor.t3 ms => some (Tensor.t3 (zero_diag_dims12 ms))
      | Tensor.t2 _ => none
    else
      match pe with
      | Tensor.t2 m => some (Tensor.t2 (zero_diag_2d m))
      | Tensor.t3 ms => some (Tensor.t3 (zero_diag_dims01 ms))
  else some pe

/-- The state of one encoder instance as `PositionEncoding.apply_to` sees
it: its `compute_pe` method (which may raise, e.g. on invalid one-hot
codes), whether the instance even *has* a `use_edge_attr` attribute (the
masking branches on `hasattr`), that attribute's value, `zero_diag`, and
whether a `savepath` is configured. -/
structure Encoder where
  computePe : Graph → Option Tensor
  hasUseEdgeAttr : Bool
  useEdgeAttr : Bool
  zeroDiag : Bool
  hasSavepath : Bool

/-- What one call to `apply_to` produces: the `pe_list` assigned onto the
dataset, the resulting content of the cache file `{savepath}.{split}`
(`none` = absent), and how many times `compute_pe` ran. -/
structure ApplyResult where
  pe_list : List Tensor
  file : Option (List Tensor)
  compute_calls : ℕ
deriving DecidableEq, Repr

/-- The masking step with the encoder's own configuration. -/
def Encoder.mask (e : Encoder) : Tensor → Option Tensor :=
  mask_pe e.hasUseEdgeAttr e.useEdgeAttr e.zeroDiag

/-- `PositionEncoding.load`: `None` without a savepath or when the file is
absent, else the pickled list. -/
def Encoder.load (e : Encoder) (file : Option (List Tensor)) : Option (List Tensor) :=
  if e.hasSavepath then file else none

/-- `PositionEncoding.apply_to(dataset, split)` against the single cache
file `{savepath}.{split}`, whose current content is `file`.  On a cache
miss every graph's encoding is computed, masked into `pe_list`, and the
*unmasked* list is saved (`save` writes only when a savepath is set and the
file does not already exist — on a miss it does not).  On a hit, entry `i`
of the cached list is masked into `pe_list` (an out-of-range index or a
masking failure raises, giving `none`), nothing is computed, and `save`
finds the file already present so it is left untouched. -/
def Encoder.apply_to (e : Encoder) (graphs : List Graph)
    (file : Option (List Tensor)) : Option ApplyResult :=
  match e.load file with
  | none =>
      match optMap e.computePe graphs with
      | none => none
      | some all_pe =>
          match optMap e.mask all_pe with
          | none => none
          | some pes =>
              some { pe_list := pes
                     file := if e.hasSavepath then some all_pe else file
                     compute_calls := graphs.length }
  | some saved =>
      match optMap (fun i => (saved.get? i).bind e.mask) (List.range graphs.length) with
      | none => none
      | some pes => some { pe_list := pes, file := file, compute_calls := 0 }

/-- An `AdjEncoding` instance as seen by the shared `apply_to` (it has no
`use_edge_attr` attribute). -/
def adjEncoder (normalization : Normalization) (zeroDiag hasSavepath : Bool) : Encoder :=
  { computePe := fun g => some (adj_compute_pe normalization g)
    hasUseEdgeAttr := false
    useEdgeAttr := false
    zeroDiag := zeroDiag
    hasSavepath := hasSavepath }

/-- A `FullEncoding` instance (no `use_edge_attr` attribute). -/
def fullEncoder (zeroDiag hasSavepath : Bool) : Encoder :=
  { computePe := fun g => some (full_compute_pe g)
    hasUseEdgeAttr := false
    useEdgeAttr := false
    zeroDiag := zeroDiag
    hasSavepath := hasSavepath }

/-- A `DiffusionEncoding` instance (always has a `use_edge_attr`
attribute). -/
def diffusionEncoder (expmFn : Mat → Mat) (beta : ℚ) (useEdgeAttr : Bool)
    (cards : List ℕ) (zeroDiag hasSavepath : Bool) : Encoder :=
  { computePe := diffusion_compute_pe expmFn beta useEdgeAttr cards
    hasUseEdgeAttr := true
    useEdgeAttr := useEdgeAttr
    zeroDiag := zeroDiag
    hasSavepath := hasSavepath }

/-- A `PStepRWEncoding` instance (always has a `use_edge_attr`
attribute). -/
def pstepEncoder (beta : ℚ) (p : ℕ) (useEdgeAttr : Bool)
    (cards : List ℕ) (zeroDiag hasSavepath : Bool) : Encoder :=
  { computePe := pstep_compute_pe beta p useEdgeAttr cards
    hasUseEdgeAttr := true
    useEdgeAttr := useEdgeAttr
    zeroDiag := zeroDiag
    hasSavepath := hasSavepath }

/-- Entry `(i, j)` of channel `c` of a tensor (0 out of range, 2-D tensors
read through their single matrix when `c = 0`). -/
def tensorEntry (t : Tensor) (c i j : ℕ) : ℚ :=
  match t with
  | Tensor.t2 m => if c = 0 then matEntry m i j else 0
  | Tensor.t3 ms => matEntry (ms.getD c []) i j

/-! ### Helper lemmas -/

theorem optMap_length {f : α → Option β} : ∀ {xs : List α} {ys : List β},
    optMap f xs = some ys → ys.length = xs.length := by
  intro xs
  induction xs with
  | nil => intro ys h; simp [optMap] at h; simp [← h]
  | cons x xs ih =>
      intro ys h
      simp only [optMap] at h
      cases hx : f x with
      | none => rw [hx] at h; simp at h
      | some y =>
          rw [hx] at h
          cases hxs : optMap f xs with
          | none => rw [hxs] at h; simp at h
          | some ys' =>
              rw [hxs] at h
              simp at h
              subst h
              simp [ih hxs]

theorem optMap_get? {f : α → Option β} : ∀ {xs : List α} {ys : List β},
    optMap f xs = some ys → ∀ i, i < xs.length →
      ∃ x y, xs.get? i = some x ∧ ys.get? i = some y ∧ f x = some y := by
  intro xs
  induction xs with
  | nil => intro ys h i hi; simp at hi
  | cons x xs ih =>
      intro ys h i hi
      simp only [optMap] at h
      cases hx : f x with
      | none => rw [hx] at h; simp at h
      | some y =>
          rw [hx] at h
          cases hxs : optMap f xs with
          | none => rw [hxs] at h; simp at h
          | some ys' =>
              rw [hxs] at h
              simp at h
              subst h
              cases i with
              | zero => exact ⟨x, y, rfl, rfl, hx⟩
              | succ i =>
                  simp at hi
                  exact ih hxs i hi

theorem optMap_congr {f g : α → Option β} : ∀ {xs : List α},
    (∀ a ∈ xs, f a = g a) → optMap f xs = optMap g xs := by
  intro xs
  induction xs with
  | nil => intro _; rfl
  | cons x xs ih =>
      intro h
      simp only [optMap]
      rw [h x (by simp), ih (fun a ha => h a (by simp [ha]))]

theorem optMap_map {g : β → Option γ} {h : α → β} : ∀ (xs : List α),
    optMap g (xs.map h) = optMap (fun a => g (h a)) xs := by
  intro xs
  induction xs with
  | nil => rfl
  | cons x xs ih => simp only [List.map_cons, optMap, ih]

theorem optMap_some_of_all {f : α → Option β} : ∀ {xs : List α},
    (∀ x ∈ xs, ∃ y, f x = some y) → ∃ ys, optMap f xs = some ys := by
  intro xs
  induction xs with
  | nil => intro _; exact ⟨[], rfl⟩
  | cons x xs ih =>
      intro h
      obtain ⟨y, hy⟩ := h x (by simp)
      obtain ⟨ys, hys⟩ := ih (fun a ha => h a (by simp [ha]))
      exact ⟨y :: ys, by simp only [optMap, hy, hys]⟩

theorem optMap_none_of_mem {f : α → Option β} : ∀ {xs : List α} {x : α},
    x ∈ xs → f x = none → optMap f xs = none := by
  intro xs
  induction xs with
  | nil => intro x hx; simp at hx
  | cons a xs ih =>
      intro x hx hfx
      rcases List.mem_cons.mp hx with h | h
      · subst h; simp only [optMap, hfx]
      · simp only [optMap, ih h hfx]
        cases f a <;> rfl

theorem optMap_mem {f : α → Option β} : ∀ {xs : List α} {ys : List β},
    optMap f xs = some ys → ∀ y ∈ ys, ∃ x ∈ xs, f x = some y := by
  intro xs
  induction xs with
  | nil =>
      intro ys h y hy
      simp [optMap] at h
      subst h; simp at hy
  | cons x xs ih =>
      intro ys h y hy
      simp only [optMap] at h
      cases hx : f x with
      | none => rw [hx] at h; simp at h
      | some y' =>
          rw [hx] at h
          cases hxs : optMap f xs with
          | none => rw [hxs] at h; simp at h
          | some ys' =>
              rw [hxs] at h
              simp at h
              subst h
              rcases List.mem_cons.mp hy with h | h
              · exact ⟨x, by simp, by rw [hx, h]⟩
              · obtain ⟨x', hx', hfx'⟩ := ih hxs y h
                exact ⟨x', by simp [hx'], hfx'⟩

theorem optMap_range_bind {f : β → Option γ} : ∀ {ys : List β} {zs : List γ},
    optMap f ys = some zs →
    optMap (fun i => (ys.get? i).bind f) (List.range ys.length) = some zs := by
  intro ys
  induction ys with
  | nil =>
      intro zs h
      simp [optMap] at h
      subst h; rfl
  | cons y ys ih =>
      intro zs h
      simp only [optMap] at h
      cases hy : f y with
      | none => rw [hy] at h; simp at h
      | some z =>
          rw [hy] at h
          cases hys : optMap f ys with
          | none => rw [hys] at h; simp at h
          | some zs' =>
              rw [hys] at h
              simp at h
              subst h
              rw [List.length_cons, List.range_succ_eq_map]
              simp only [optMap, List.get?, Option.some_bind, hy, optMap_map]
              rw [ih hys]

theorem mem_zipWith {f : α → β → γ} : ∀ {l1 : List α} {l2 : List β} {c : γ},
    c ∈ List.zipWith f l1 l2 → ∃ a b, a ∈ l1 ∧ b ∈ l2 ∧ c = f a b := by
  intro l1
  induction l1 with
  | nil => intro l2 c h; simp at h
  | cons x xs ih =>
      intro l2 c h
      cases l2 with
      | nil => simp at h
      | cons y ys =>
          rcases List.mem_cons.mp h with h | h
          · exact ⟨x, y, by simp, by simp, h⟩
          · obtain ⟨a, b, ha, hb, hc⟩ := ih h
            exact ⟨a, b, by simp [ha], by simp [hb], hc⟩

theorem get_laplacian_none_length (edges : List (ℕ × ℕ)) (w : Option (List ℚ)) (n : ℕ) :
    (get_laplacian_none edges w n).length = n := by
  simp [get_laplacian_none]

theorem get_laplacian_none_square (edges : List (ℕ × ℕ)) (w : Option (List ℚ)) (n : ℕ) :
    isSquareOf n (get_laplacian_none edges w n) := by
  constructor
  · simp [get_laplacian_none]
  · intro row hrow
    simp only [get_laplacian_none, List.mem_map] at hrow
    obtain ⟨i, _, hrow⟩ := hrow
    simp [← hrow]

theorem numCols_of_square {n : ℕ} {m : Mat} (h : isSquareOf n m) : numCols m = n := by
  obtain ⟨hl, hr⟩ := h
  cases m with
  | nil => simpa [numCols] using hl
  | cons r rs => simpa [numCols] using hr r (by simp)

theorem matId_square (n : ℕ) : isSquareOf n (matId n) := by
  constructor
  · simp [matId]
  · intro row hrow
    simp only [matId, List.mem_map] at hrow
    obtain ⟨i, _, hrow⟩ := hrow
    simp [← hrow]

theorem matScale_square {n : ℕ} {m : Mat} (c : ℚ) (h : isSquareOf n m) :
    isSquareOf n (matScale c m) := by
  obtain ⟨hl, hr⟩ := h
  constructor
  · simp [matScale, hl]
  · intro row hrow
    simp only [matScale, List.mem_map] at hrow
    obtain ⟨r, hrm, hrow⟩ := hrow
    simp [← hrow, hr r hrm]

theorem matSub_square {n : ℕ} {a b : Mat} (ha : isSquareOf n a) (hb : isSquareOf n b) :
    isSquareOf n (matSub a b) := by
  constructor
  · simp [matSub, ha.1, hb.1]
  · intro row hrow
    obtain ⟨ra, rb, hra, hrb, hrow⟩ := mem_zipWith hrow
    subst hrow
    simp [ha.2 ra hra, hb.2 rb hrb]

theorem matMul_square {n : ℕ} {a b : Mat} (ha : isSquareOf n a) (hb : isSquareOf n b) :
    isSquareOf n (matMul a b) := by
  constructor
  · simp [matMul, ha.1]
  · intro row hrow
    simp only [matMul, List.mem_map] at hrow
    obtain ⟨r, _, hrow⟩ := hrow
    simp [← hrow, numCols_of_square hb]

theorem pstep_base_square {n : ℕ} {L : Mat} (beta : ℚ) (h : isSquareOf n L) :
    isSquareOf n (pstep_base beta L) := by
  unfold pstep_base
  rw [h.1]
  exact matSub_square (matId_square n) (matScale_square beta h)

theorem foldl_matMul_square {n : ℕ} {M : Mat} (hM : isSquareOf n M) :
    ∀ (l : List ℕ) {A : Mat}, isSquareOf n A →
      isSquareOf n (l.foldl (fun tmp _ => matMul tmp M) A) := by
  intro l
  induction l with
  | nil => intro A hA; exact hA
  | cons x xs ih => intro A hA; exact ih (matMul_square hA hM)

theorem pstep_power_square {n : ℕ} {L : Mat} (beta : ℚ) (p : ℕ) (h : isSquareOf n L) :
    isSquareOf n (pstep_power beta L p) :=
  foldl_matMul_square (pstep_base_square beta h) _ (pstep_base_square beta h)

theorem pstep_pe_square (beta : ℚ) (p : ℕ) (edges : List (ℕ × ℕ))
    (w : Option (List ℚ)) (n : ℕ) :
    isSquareOf n (pstep_compute_pe_from_edge_weight beta p edges w n) :=
  pstep_power_square beta p (get_laplacian_none_square edges w n)

theorem foldl_matMul_powSucc (M : Mat) :
    ∀ m : ℕ, (List.range m).foldl (fun tmp _ => matMul tmp M) M = matPowSucc M m := by
  intro m
  induction m with
  | zero => rfl
  | succ k ih =>
      rw [List.range_succ, List.foldl_append, ih]
      rfl

theorem pstep_power_eq_powSucc (beta : ℚ) (L : Mat) (p : ℕ) :
    pstep_power beta L p = matPowSucc (pstep_base beta L) (p - 1) :=
  foldl_matMul_powSucc (pstep_base beta L) (p - 1)

theorem range_map_getD {f : ℕ → α} {d : α} {n i : ℕ} (h : i < n) :
    ((List.range n).map f).getD i d = f i := by
  rw [List.getD_eq_getElem?_getD, List.getElem?_map, List.getElem?_range h]
  rfl

theorem adjMat_square (n : ℕ) (edges : List (ℕ × ℕ)) : isSquareOf n (adjMat n edges) := by
  constructor
  · simp [adjMat]
  · intro row hrow
    simp only [adjMat, List.mem_map] at hrow
    obtain ⟨i, _, hrow⟩ := hrow
    simp [← hrow]

theorem sum_indicator_range (a : ℤ) (n : ℕ) :
    ((List.range n).map fun (j : ℕ) => if (j : ℤ) = a then (1 : ℚ) else 0).sum
      = if 0 ≤ a ∧ a < (n : ℤ) then 1 else 0 := by
  induction n with
  | zero =>
      simp only [List.range_zero, List.map_nil, List.sum_nil]
      rw [if_neg]
      omega
  | succ m ih =>
      rw [List.range_succ, List.map_append, List.sum_append, ih]
      simp only [List.map_cons, List.map_nil, List.sum_cons, List.sum_nil, add_zero]
      by_cases h1 : 0 ≤ a ∧ a < m
      · rw [if_pos h1, if_neg (by omega), if_pos (by omega)]
        norm_num
      · rw [if_neg h1]
        by_cases h2 : (m : ℤ) = a
        · rw [if_pos h2, if_pos (by omega)]
          norm_num
        · rw [if_neg h2, if_neg (by omega)]
          norm_num

theorem one_hot_sum {a : ℤ} {n : ℕ} {v : List ℚ} (h : one_hot a n = some v) :
    v.sum = 1 := by
  unfold one_hot at h
  split at h
  · rename_i hc
    simp only [Option.some.injEq] at h
    rw [← h, sum_indicator_range, if_pos hc]
  · simp at h

theorem one_hot_isSome_iff (a : ℤ) (n : ℕ) :
    (∃ v, one_hot a n = some v) ↔ 0 ≤ a ∧ a < (n : ℤ) := by
  unfold one_hot
  constructor
  · intro ⟨v, hv⟩
    by_contra hc
    rw [if_neg hc] at hv
    simp at hv
  · intro hc
    rw [if_pos hc]
    exact ⟨_, rfl⟩

theorem sum_of_map_sum_ones {ys : List (List ℚ)} (h : ∀ v ∈ ys, v.sum = 1) :
    (ys.map List.sum).sum = ys.length := by
  induction ys with
  | nil => simp
  | cons v ys ih =>
      simp only [List.map_cons, List.sum_cons, List.length_cons,
        h v (by simp), ih (fun u hu => h u (by simp [hu]))]
      push_cast
      ring

theorem insertByKey_length (x : ℚ × ℕ) : ∀ (l : List (ℚ × ℕ)),
    (insertByKey x l).length = l.length + 1 := by
  intro l
  induction l with
  | nil => rfl
  | cons y ys ih =>
      simp only [insertByKey]
      split
      · simp
      · simp [ih]

theorem sortByKey_length : ∀ (l : List (ℚ × ℕ)), (sortByKey l).length = l.length := by
  intro l
  induction l with
  | nil => rfl
  | cons x xs ih => simp [sortByKey, insertByKey_length, ih]

theorem argsort_length (xs : List ℚ) : (argsort xs).length = xs.length := by
  simp [argsort, sortByKey_length]

/-! ### Claim theorems -/

/-- C5: for every graph (edge list, optional edge weights, node count) and
every bandwidth `beta`, the P-Step random-walk encoding with `p = 1` is
exactly the base matrix `M = I − β·L`, and its multiplication loop runs
zero times. -/
theorem pstep_p1_is_base_matrix (edges : List (ℕ × ℕ)) (w : Option (List ℚ))
    (n : ℕ) (beta : ℚ) :
    pstep_compute_pe_from_edge_weight beta 1 edges w n
        = matSub (matId n) (matScale beta (get_laplacian_none edges w n))
      ∧ pstep_num_matmuls 1 = 0 := by
  constructor
  · show pstep_power beta (get_laplacian_none edges w n) 1 = _
    unfold pstep_power pstep_base
    rw [get_laplacian_none_length]
    rfl
  · rfl

/-- C6: for every graph, bandwidth `beta` and `k ≥ 1`, the P-Step encoding
at `p = k + 1` is the encoding at `p = k` multiplied on the right by the
base matrix `M = I − β·L`; equivalently the order-`p` result is `M` raised
step by step with `p − 1` multiplications. -/
theorem pstep_succ_recurrence (edges : List (ℕ × ℕ)) (w : Option (List ℚ))
    (n : ℕ) (beta : ℚ) (k : ℕ) (hk : 1 ≤ k) :
    pstep_compute_pe_from_edge_weight beta (k + 1) edges w n
        = matMul (pstep_compute_pe_from_edge_weight beta k edges w n)
            (pstep_base beta (get_laplacian_none edges w n))
      ∧ pstep_compute_pe_from_edge_weight beta k edges w n
        = matPowSucc (pstep_base beta (get_laplacian_none edges w n)) (k - 1)
      ∧ pstep_num_matmuls k = k - 1 := by
  obtain ⟨j, rfl⟩ : ∃ j, k = j + 1 := ⟨k - 1, by omega⟩
  refine ⟨?_, pstep_power_eq_powSucc beta _ (j + 1), by simp [pstep_num_matmuls]⟩
  show pstep_power beta (get_laplacian_none edges w n) (j + 1 + 1)
      = matMul (pstep_power beta (get_laplacian_none edges w n) (j + 1))
          (pstep_base beta (get_laplacian_none edges w n))
  rw [pstep_power_eq_powSucc, pstep_power_eq_powSucc]
  rfl

/-- Witness for C6 at a concrete 2-node path graph, `beta = 1`, `k = 1`. -/
theorem pstep_succ_recurrence_witness :
    1 ≤ 1 ∧
    pstep_compute_pe_from_edge_weight 1 2 [(0, 1), (1, 0)] none 2
      = matMul (pstep_compute_pe_from_edge_weight 1 1 [(0, 1), (1, 0)] none 2)
          (pstep_base 1 (get_laplacian_none [(0, 1), (1, 0)] none 2)) :=
  ⟨by decide, (pstep_succ_recurrence [(0, 1), (1, 0)] none 2 1 1 (by decide)).1⟩

/-- C8 counterexample: `AdjEncoding.compute_pe` on a 3-node graph with the
edge pair `0 ↔ 1` does not return a `[num_nodes, num_nodes]` single-channel
matrix — `to_dense_adj` returns the batched tensor of shape `[1, 2, 2]`
(node count inferred from the largest edge endpoint). -/
theorem adj_shape_not_square_2d :
    tensorShape (adj_compute_pe Normalization.nrmNone
        { num_nodes := 3, edge_index := [(0, 1), (1, 0)] }) ≠ [3, 3] := by
  decide

/-- C8 amended: `AdjEncoding.compute_pe` returns `to_dense_adj(edge_index)`,
a batched `[1, M, M]` tensor with `M` one more than the largest endpoint
index (0 without edges), whose single channel counts the edges `i → j`
with no normalization applied — the result is identical for every
configured normalization mode. -/
theorem adj_returns_batched_dense_adj (g : Graph) (n1 n2 : Normalization) :
    adj_compute_pe n1 g = adj_compute_pe n2 g
      ∧ adj_compute_pe n1 g
        = Tensor.t3 [adjMat (inferred_num_nodes g.edge_index) g.edge_index]
      ∧ tensorShape (adj_compute_pe n1 g)
        = [1, inferred_num_nodes g.edge_index, inferred_num_nodes g.edge_index]
      ∧ ∀ i j, i < inferred_num_nodes g.edge_index →
          j < inferred_num_nodes g.edge_index →
          tensorEntry (adj_compute_pe n1 g) 0 i j
            = ((g.edge_index.filter fun e => e == (i, j)).length : ℚ) := by
  refine ⟨rfl, rfl, ?_, ?_⟩
  · show tensorShape (Tensor.t3 [adjMat (inferred_num_nodes g.edge_index) g.edge_index]) = _
    have hsq := adjMat_square (inferred_num_nodes g.edge_index) g.edge_index
    simp [tensorShape, hsq.1, numCols_of_square hsq]
  · intro i j hi hj
    show matEntry (adjMat (inferred_num_nodes g.edge_index) g.edge_index) i j = _
    unfold matEntry adjMat
    rw [range_map_getD hi, range_map_getD hj]

/-- Witness for C8 amended: the edge `0 → 1` of the 3-node graph is counted
at entry `(0, 1)` of the single channel. -/
theorem adj_returns_batched_dense_adj_witness :
    tensorEntry (adj_compute_pe Normalization.nrmNone
        { num_nodes := 3, edge_index := [(0, 1), (1, 0)] }) 0 0 1
      = ((([(0, 1), (1, 0)] : List (ℕ × ℕ)).filter fun e => e == (0, 1)).length : ℚ) :=
  (adj_returns_batched_dense_adj
      { num_nodes := 3, edge_index := [(0, 1), (1, 0)] }
      Normalization.nrmNone Normalization.sym).2.2.2 0 1 (by decide) (by decide)

/-- C1 (bug demonstration): with `AdjEncoding` (`zero_diag = True`, a
savepath configured) on the single graph `0 → 1`, `1 → 1`, the first
`apply_to` persists the unmasked adjacency `[[0,1],[0,1]]` to the cache,
and a later `apply_to` that loads the cache re-applies the masking — but
the masking (`pe.diagonal()[:] = 0` on the batched `[1,2,2]` tensor) leaves
the diagonal entry `(1,1)` of the channel at 1, so the pe_list produced
from the cache load does *not* have a masked diagonal. -/
theorem cache_stores_unmasked_but_adj_diagonal_survives :
    (adjEncoder Normalization.nrmNone true true).apply_to
        [{ num_nodes := 2, edge_index := [(0, 1), (1, 1)] }] none
      = some { pe_list := [Tensor.t3 [[[0, 0], [0, 1]]]]
               file := some [Tensor.t3 [[[0, 1], [0, 1]]]]
               compute_calls := 1 }
    ∧ (adjEncoder Normalization.nrmNone true true).apply_to
        [{ num_nodes := 2, edge_index := [(0, 1), (1, 1)] }]
        (some [Tensor.t3 [[[0, 1], [0, 1]]]])
      = some { pe_list := [Tensor.t3 [[[0, 0], [0, 1]]]]
               file := some [Tensor.t3 [[[0, 1], [0, 1]]]]
               compute_calls := 0 }
    ∧ tensorEntry (Tensor.t3 [[[0, 0], [0, 1]]]) 0 1 1 = 1 := by
  decide

/-- C2 (bug demonstration): with `zero_diag = True`, `AdjEncoding`'s entry
assigned into pe_list is its batched `[1,2,2]` adjacency with the *first
row* of the channel zeroed (torch `diagonal()` over dims 0 and 1), not the
per-channel diagonal the claim describes: per-channel diagonal masking of
`[[0,1],[0,1]]` would give `[[0,1],[0,0]]`, while the code produces
`[[0,0],[0,1]]`, whose diagonal entry `(1,1)` is still 1. -/
theorem zero_diag_on_adj_zeroes_first_row_not_diagonal :
    (adjEncoder Normalization.nrmNone true false).apply_to
        [{ num_nodes := 2, edge_index := [(0, 1), (1, 1)] }] none
      = some { pe_list := [Tensor.t3 [[[0, 0], [0, 1]]]]
               file := none
               compute_calls := 1 }
    ∧ tensorEntry (Tensor.t3 [[[0, 0], [0, 1]]]) 0 1 1 = 1
    ∧ zero_diag_dims12 [[[0, 1], [0, 1]]] = [[[0, 1], [0, 0]]] := by
  decide

/-- C3: whenever the cache file exists, a (successful) `apply_to` call with
any encoder configured with a savepath — however its other options are
configured — leaves the file content unchanged, calls `compute_pe` zero
times, and builds `pe_list` by masking the *old* cached entries. -/
theorem apply_to_existing_cache_no_overwrite (e : Encoder) (gs : List Graph)
    (content : List Tensor) (res : ApplyResult)
    (hsave : e.hasSavepath = true)
    (h : e.apply_to gs (some content) = some res) :
    res.file = some content ∧ res.compute_calls = 0 ∧
      ∀ i, i < gs.length → res.pe_list.get? i = (content.get? i).bind e.mask := by
  unfold Encoder.apply_to Encoder.load at h
  rw [hsave] at h
  simp only [if_true] at h
  cases hm : optMap (fun i => (content.get? i).bind e.mask) (List.range gs.length) with
  | none => rw [hm] at h; simp at h
  | some pes =>
      rw [hm] at h
      simp only [Option.some.injEq] at h
      subst h
      refine ⟨rfl, rfl, ?_⟩
      intro i hi
      obtain ⟨x, y, hx, hy, hfx⟩ := optMap_get? hm i (by simpa using hi)
      rw [List.get?_range hi] at hx
      simp only [Option.some.injEq] at hx
      subst hx
      rw [hy, ← hfx]

/-- Witness for C3: a `FullEncoding` with `zero_diag = True` and a savepath,
applied over a 1-graph dataset against an existing cache holding `[[5]]`:
the file survives, nothing is computed, and the pe entry is the masked
cached value. -/
theorem apply_to_existing_cache_no_overwrite_witness :
    (fullEncoder true true).hasSavepath = true
    ∧ (fullEncoder true true).apply_to [{ num_nodes := 1, edge_index := [] }]
        (some [Tensor.t2 [[5]]])
        = some { pe_list := [Tensor.t2 [[0]]]
                 file := some [Tensor.t2 [[5]]]
                 compute_calls := 0 }
    ∧ ({ pe_list := [Tensor.t2 [[0]]]
         file := some [Tensor.t2 [[5]]]
         compute_calls := 0 } : ApplyResult).pe_list.get? 0
        = (([Tensor.t2 [[5]]] : List Tensor).get? 0).bind (fullEncoder true true).mask :=
  ⟨rfl, by decide,
    (apply_to_existing_cache_no_overwrite (fullEncoder true true)
      [{ num_nodes := 1, edge_index := [] }] [Tensor.t2 [[5]]]
      { pe_list := [Tensor.t2 [[0]]]
        file := some [Tensor.t2 [[5]]]
        compute_calls := 0 }
      rfl (by decide)).2.2 0 (by decide)⟩

/-- C4: with a savepath and an absent cache file, one (successful)
`apply_to` call computes and persists; a second call with an identically
configured encoder on the resulting file returns the same `pe_list`, calls
`compute_pe` zero times, and leaves the file as the first call wrote it. -/
theorem apply_to_cache_roundtrip (e : Encoder) (gs : List Graph) (res1 : ApplyResult)
    (hsave : e.hasSavepath = true)
    (h : e.apply_to gs none = some res1) :
    ∃ res2, e.apply_to gs res1.file = some res2
      ∧ res2.pe_list = res1.pe_list
      ∧ res2.compute_calls = 0
      ∧ res2.file = res1.file := by
  unfold Encoder.apply_to Encoder.load at h
  rw [hsave] at h
  simp only [if_true] at h
  cases hall : optMap e.computePe gs with
  | none => rw [hall] at h; simp at h
  | some all =>
      rw [hall] at h
      dsimp only at h
      cases hpes : optMap e.mask all with
      | none => rw [hpes] at h; simp at h
      | some pes =>
          rw [hpes] at h
          simp only [Option.some.injEq] at h
          subst h
          have hlen : all.length = gs.length := optMap_length hall
          have h2 : optMap (fun i => (all.get? i).bind e.mask) (List.range all.length)
              = some pes := optMap_range_bind hpes
          refine ⟨{ pe_list := pes, file := some all, compute_calls := 0 }, ?_, rfl, rfl, rfl⟩
          unfold Encoder.apply_to Encoder.load
          rw [hsave]
          simp only [if_true, ← hlen, h2]

/-- Witness for C4: a `FullEncoding` with `zero_diag = True` and a savepath
over a single 1-node graph: the first call produces pe `[[0]]` and persists
the unmasked `[[1]]`; the round-trip theorem applies to it. -/
theorem apply_to_cache_roundtrip_witness :
    (fullEncoder true true).hasSavepath = true
    ∧ ∃ res2, (fullEncoder true true).apply_to [{ num_nodes := 1, edge_index := [] }]
          ({ pe_list := [Tensor.t2 [[0]]]
             file := some [Tensor.t2 [[1]]]
             compute_calls := 1 } : ApplyResult).file = some res2
        ∧ res2.pe_list = ({ pe_list := [Tensor.t2 [[0]]]
                            file := some [Tensor.t2 [[1]]]
                            compute_calls := 1 } : ApplyResult).pe_list
        ∧ res2.compute_calls = 0
        ∧ res2.file = ({ pe_list := [Tensor.t2 [[0]]]
                         file := some [Tensor.t2 [[1]]]
                         compute_calls := 1 } : ApplyResult).file :=
  ⟨rfl, apply_to_cache_roundtrip (fullEncoder true true)
    [{ num_nodes := 1, edge_index := [] }]
    { pe_list := [Tensor.t2 [[0]]]
      file := some [Tensor.t2 [[1]]]
      compute_calls := 1 }
    rfl (by decide)⟩

/-- C7: for every graph with valid edge attributes, both multi-channel
encoders (`use_edge_attr = True`, per-column cardinalities `cards`) return
a `[C, N, N]` tensor whose channel count `C` is the sum of the
cardinalities (e.g. `[4, 6]` gives 10 channels), channel `i` being the
single-channel encoding computed with one-hot column `i` as the edge
weights.  For the Diffusion case the external `expm` is assumed to
preserve the matrix shape, as scipy's does. -/
theorem multichannel_count_and_channels (expmFn : Mat → Mat) (beta : ℚ) (p : ℕ)
    (cards : List ℕ) (g : Graph) (ea : List (List ℚ))
    (hea : edge_attr_one_hot_list g.edge_attr cards = some ea)
    (hexpm : ∀ m, isSquareOf g.num_nodes m → isSquareOf g.num_nodes (expmFn m)) :
    ∃ chansD chansP,
      diffusion_compute_pe expmFn beta true cards g = some (Tensor.t3 chansD)
      ∧ pstep_compute_pe beta p true cards g = some (Tensor.t3 chansP)
      ∧ chansD.length = cards.sum
      ∧ chansP.length = cards.sum
      ∧ (∀ m ∈ chansD, isSquareOf g.num_nodes m)
      ∧ (∀ m ∈ chansP, isSquareOf g.num_nodes m)
      ∧ ∀ i, i < cards.sum →
          chansD.get? i = some (diffusion_compute_pe_from_edge_weight expmFn beta
              g.edge_index (some (colOf ea i)) g.num_nodes)
          ∧ chansP.get? i = some (pstep_compute_pe_from_edge_weight beta p
              g.edge_index (some (colOf ea i)) g.num_nodes) := by
  refine ⟨(List.range cards.sum).map fun i =>
            diffusion_compute_pe_from_edge_weight expmFn beta
              g.edge_index (some (colOf ea i)) g.num_nodes,
          (List.range cards.sum).map fun i =>
            pstep_compute_pe_from_edge_weight beta p
              g.edge_index (some (colOf ea i)) g.num_nodes,
          ?_, ?_, by simp, by simp, ?_, ?_, ?_⟩
  · unfold diffusion_compute_pe compute_pe_multichannel
    rw [if_pos rfl, hea]
  · unfold pstep_compute_pe compute_pe_multichannel
    rw [if_pos rfl, hea]
  · intro m hm
    simp only [List.mem_map] at hm
    obtain ⟨i, _, rfl⟩ := hm
    exact hexpm _ (matScale_square _ (get_laplacian_none_square _ _ _))
  · intro m hm
    simp only [List.mem_map] at hm
    obtain ⟨i, _, rfl⟩ := hm
    exact pstep_pe_square _ _ _ _ _
  · intro i hi
    constructor <;> rw [List.get?_map, List.get?_range hi] <;> rfl

/-- Witness for C7: one edge with attribute row `[1, 2]`, cardinalities
`[4, 6]`, `expm` instantiated with the identity map. -/
theorem multichannel_count_and_channels_witness :
    edge_attr_one_hot_list ([[1, 2]] : List (List ℤ)) [4, 6]
        = some [[0, 1, 0, 0, 0, 0, 1, 0, 0, 0]]
    ∧ ∃ chansD chansP,
        diffusion_compute_pe (fun m => m) 1 true [4, 6]
            { num_nodes := 2, edge_index := [(0, 1)], edge_attr := [[1, 2]] }
          = some (Tensor.t3 chansD)
        ∧ pstep_compute_pe 1 2 true [4, 6]
            { num_nodes := 2, edge_index := [(0, 1)], edge_attr := [[1, 2]] }
          = some (Tensor.t3 chansP)
        ∧ chansD.length = ([4, 6] : List ℕ).sum
        ∧ chansP.length = ([4, 6] : List ℕ).sum
        ∧ (∀ m ∈ chansD, isSquareOf 2 m)
        ∧ (∀ m ∈ chansP, isSquareOf 2 m)
        ∧ ∀ i, i < ([4, 6] : List ℕ).sum →
            chansD.get? i = some (diffusion_compute_pe_from_edge_weight (fun m => m) 1
                [(0, 1)] (some (colOf [[0, 1, 0, 0, 0, 0, 1, 0, 0, 0]] i)) 2)
            ∧ chansP.get? i = some (pstep_compute_pe_from_edge_weight 1 2
                [(0, 1)] (some (colOf [[0, 1, 0, 0, 0, 0, 1, 0, 0, 0]] i)) 2) :=
  ⟨by decide,
    multichannel_count_and_channels (fun m => m) 1 2 [4, 6]
      { num_nodes := 2, edge_index := [(0, 1)], edge_attr := [[1, 2]] }
      [[0, 1, 0, 0, 0, 0, 1, 0, 0, 0]] (by decide) (fun _ h => h)⟩

theorem getD_of_get? {l : List α} {n : ℕ} {x d : α} (h : l.get? n = some x) :
    l.getD n d = x := by
  rw [List.getD_eq_getElem?_getD, ← List.get?_eq_getElem?, h]
  rfl

/-- C9 counterexample: requesting `dim = 5` eigenvectors of a 2-node graph
(`dim + 1 = 6 > 2 = num_nodes`) does not fail — numpy slicing truncates,
and `LapEncoding.compute_pe` returns the single available non-trivial
eigenvector column (here with the eigendecomposition of the path Laplacian
`[[1,-1],[-1,1]]` supplied as eigenvalues `0, 2` with unnormalized integer
eigenvectors). -/
theorem lap_dim_overflow_truncates_silently :
    lap_compute_pe (fun _ => ([0, 2], [[1, 1], [1, -1]])) 5
        { num_nodes := 2, edge_index := [(0, 1), (1, 0)] } = [[1], [-1]] := by
  decide

/-- C9 amended: `LapEncoding.compute_pe` never raises when `dim + 1`
exceeds `num_nodes`; given an eigendecomposition of the `n × n` Laplacian
(`n` eigenvalues, an eigenvector matrix with `n` rows), it returns the
matrix with `n` rows and `min dim (n − 1)` columns whose entry `(r, c)` is
entry `(r, idx[c + 1])` of the eigenvector matrix, where `idx` is the
ascending-eigenvalue argsort — the eigenvectors at positions `2 … dim + 1`
when `dim + 1 ≤ n`, and the silently truncated remainder otherwise. -/
theorem lap_compute_pe_shape_and_slice (eigFn : Mat → List ℚ × Mat) (dim : ℕ) (g : Graph)
    (hval : (eigFn (get_laplacian_none g.edge_index none g.num_nodes)).1.length
      = g.num_nodes)
    (hvec : (eigFn (get_laplacian_none g.edge_index none g.num_nodes)).2.length
      = g.num_nodes) :
    (lap_compute_pe eigFn dim g).length = g.num_nodes
    ∧ (∀ row ∈ lap_compute_pe eigFn dim g, row.length = min dim (g.num_nodes - 1))
    ∧ ∀ r c, r < g.num_nodes → c < min dim (g.num_nodes - 1) →
        matEntry (lap_compute_pe eigFn dim g) r c
          = matEntry (eigFn (get_laplacian_none g.edge_index none g.num_nodes)).2 r
              ((argsort (eigFn (get_laplacian_none g.edge_index none g.num_nodes)).1).getD
                (c + 1) 0) := by
  set L := get_laplacian_none g.edge_index none g.num_nodes with hL
  set ev := eigFn L with hev
  set idx := argsort ev.1 with hidx
  have hidxlen : idx.length = g.num_nodes := by
    rw [hidx, argsort_length, hval]
  have hres : lap_compute_pe eigFn dim g
      = ev.2.map fun row => (((idx.map fun j => row.getD j 0).drop 1).take dim) := by
    show ((ev.2.map fun row => idx.map fun j => row.getD j 0).map
        fun row => (row.drop 1).take dim) = _
    rw [List.map_map]
    rfl
  refine ⟨?_, ?_, ?_⟩
  · rw [hres, List.length_map, hvec]
  · intro row hrow
    rw [hres] at hrow
    simp only [List.mem_map] at hrow
    obtain ⟨orig, _, rfl⟩ := hrow
    simp [hidxlen]
  · intro r c hr hc
    have hr2 : r < ev.2.length := by rw [hvec]; exact hr
    obtain ⟨orig, horig⟩ : ∃ orig, ev.2.get? r = some orig :=
      ⟨ev.2.get (⟨r, hr2⟩), List.get?_eq_get hr2⟩
    have hresr : (lap_compute_pe eigFn dim g).get? r
        = some (((idx.map fun j => orig.getD j 0).drop 1).take dim) := by
      rw [hres, List.get?_map, horig]
      rfl
    have hc1 : c + 1 < idx.length := by
      rw [hidxlen]
      omega
    obtain ⟨j0, hj0⟩ : ∃ j0, idx.get? (c + 1) = some j0 :=
      ⟨idx.get (⟨c + 1, hc1⟩), List.get?_eq_get hc1⟩
    have hcdim : c < dim := lt_of_lt_of_le hc (min_le_left _ _)
    have hslice : (((idx.map fun j => orig.getD j 0).drop 1).take dim).get? c
        = some (orig.getD j0 0) := by
      rw [List.get?_take hcdim, List.get?_drop, List.get?_map]
      have : (1 : ℕ) + c = c + 1 := by omega
      rw [this, hj0]
      rfl
    unfold matEntry
    rw [getD_of_get? hresr, getD_of_get? hslice, getD_of_get? hj0, getD_of_get? horig]

/-- Witness for C9 amended at the 2-node path graph with a concrete
eigendecomposition, `dim = 1`, entry `(0, 0)`. -/
theorem lap_compute_pe_shape_and_slice_witness :
    matEntry (lap_compute_pe (fun _ => ([0, 2], [[1, 1], [1, -1]])) 1
        { num_nodes := 2, edge_index := [(0, 1), (1, 0)] }) 0 0
      = matEntry [[1, 1], [1, -1]] 0 ((argsort [0, 2]).getD 1 0) :=
  (lap_compute_pe_shape_and_slice (fun _ => ([0, 2], [[1, 1], [1, -1]])) 1
    { num_nodes := 2, edge_index := [(0, 1), (1, 0)] }
    (by decide) (by decide)).2.2 0 0 (by decide) (by decide)

/-- C10: the two modes of `edge_attr_one_hot` treat categorical codes
inconsistently: with an integer `n` it one-hot encodes `code − 1`, so every
code must lie in `[1, n]` and a code of 0 makes the one-hot call fail,
while with a cardinality list it encodes each column's codes directly, so
codes must lie in `[0, card)`; under the respective precondition no error
is raised and every edge's output row sums to the number of edge-feature
columns. -/
theorem edge_attr_one_hot_modes (attrs : List (List ℤ)) (n : ℕ) (cards : List ℕ) :
    ((∀ row ∈ attrs, ∀ a ∈ row, 1 ≤ a ∧ a ≤ (n : ℤ)) →
      ∃ out, edge_attr_one_hot_int attrs n = some out
        ∧ ∀ i, i < attrs.length →
            ((out.getD i []).map List.sum).sum = ((attrs.getD i []).length : ℚ))
    ∧ ((∃ row ∈ attrs, (0 : ℤ) ∈ row) → edge_attr_one_hot_int attrs n = none)
    ∧ ((∀ row ∈ attrs, cards.length ≤ row.length ∧
          ∀ c, c < cards.length →
            0 ≤ row.getD c 0 ∧ row.getD c 0 < ((cards.getD c 0 : ℕ) : ℤ)) →
      ∃ out, edge_attr_one_hot_list attrs cards = some out
        ∧ ∀ orow ∈ out, orow.sum = (cards.length : ℚ)) := by
  refine ⟨?_, ?_, ?_⟩
  · intro hvalid
    obtain ⟨out, hout⟩ : ∃ out, edge_attr_one_hot_int attrs n = some out := by
      unfold edge_attr_one_hot_int
      apply optMap_some_of_all
      intro row hrow
      apply optMap_some_of_all
      intro a ha
      refine (one_hot_isSome_iff _ _).mpr ?_
      have := hvalid row hrow a ha
      omega
    refine ⟨out, hout, ?_⟩
    intro i hi
    obtain ⟨row, orow, hrowi, horowi, hf⟩ := optMap_get? hout i hi
    rw [getD_of_get? horowi, getD_of_get? hrowi]
    have hsums : ∀ v ∈ orow, v.sum = 1 := by
      intro v hv
      obtain ⟨a, _, hav⟩ := optMap_mem hf v hv
      exact one_hot_sum hav
    rw [sum_of_map_sum_ones hsums, optMap_length hf]
  · intro ⟨row, hrow, h0⟩
    unfold edge_attr_one_hot_int
    refine optMap_none_of_mem hrow (optMap_none_of_mem h0 ?_)
    unfold one_hot
    rw [if_neg (by omega)]
  · intro hvalid
    have hmk : ∀ row ∈ attrs, ∃ orow,
        ((optMap (fun c => (row.get? c).bind fun a => one_hot a (cards.getD c 0))
          (List.range cards.length)).map List.flatten) = some orow
        ∧ orow.sum = (cards.length : ℚ) := by
      intro row hrow
      obtain ⟨hlen, hcol⟩ := hvalid row hrow
      obtain ⟨blocks, hblocks⟩ : ∃ blocks,
          optMap (fun c => (row.get? c).bind fun a => one_hot a (cards.getD c 0))
            (List.range cards.length) = some blocks := by
        apply optMap_some_of_all
        intro c hc
        rw [List.mem_range] at hc
        have hclen : c < row.length := lt_of_lt_of_le hc hlen
        have h1 := List.get?_eq_get hclen
        have hget : row.get? c = some (row.getD c 0) := by
          rw [h1, getD_of_get? h1]
        rw [hget]
        simp only [Option.some_bind]
        exact (one_hot_isSome_iff _ _).mpr ⟨(hcol c hc).1, (hcol c hc).2⟩
      refine ⟨blocks.flatten, by rw [hblocks]; rfl, ?_⟩
      have hbsum : ∀ b ∈ blocks, b.sum = 1 := by
        intro b hb
        obtain ⟨c, _, hcb⟩ := optMap_mem hblocks b hb
        cases hrowc : row.get? c with
        | none => rw [hrowc] at hcb; simp at hcb
        | some a =>
            rw [hrowc] at hcb
            simp only [Option.some_bind] at hcb
            exact one_hot_sum hcb
      rw [List.sum_flatten, sum_of_map_sum_ones hbsum, optMap_length hblocks]
      simp
    obtain ⟨out, hout⟩ : ∃ out, edge_attr_one_hot_list attrs cards = some out := by
      unfold edge_attr_one_hot_list
      apply optMap_some_of_all
      intro row hrow
      obtain ⟨orow, ho, _⟩ := hmk row hrow
      exact ⟨orow, ho⟩
    refine ⟨out, hout, ?_⟩
    intro orow horow
    obtain ⟨row, hrow, hfrow⟩ := optMap_mem hout orow horow
    obtain ⟨orow2, ho2, hsum2⟩ := hmk row hrow
    rw [hfrow] at ho2
    injection ho2 with he
    rw [he]
    exact hsum2

/-- Witness for C10: int mode on codes `[1, 2]` with `n = 4` succeeds with
row sum 2; a code of 0 fails; list mode on `[1, 2]` with cardinalities
`[4, 6]` succeeds with row sum 2. -/
theorem edge_attr_one_hot_modes_witness :
    (∃ out, edge_attr_one_hot_int [[1, 2]] 4 = some out
        ∧ ∀ i, i < ([[1, 2]] : List (List ℤ)).length →
            ((out.getD i []).map List.sum).sum
              = ((([[1, 2]] : List (List ℤ)).getD i []).length : ℚ))
    ∧ edge_attr_one_hot_int [[0]] 4 = none
    ∧ (∃ out, edge_attr_one_hot_list [[1, 2]] [4, 6] = some out
        ∧ ∀ orow ∈ out, orow.sum = (([4, 6] : List ℕ).length : ℚ)) :=
  ⟨(edge_attr_one_hot_modes [[1, 2]] 4 []).1 (by decide),
   (edge_attr_one_hot_modes [[0]] 4 []).2.1 (by decide),
   (edge_attr_one_hot_modes [[1, 2]] 0 [4, 6]).2.2 (by decide)⟩

end GraphiT
